import Mathlib

set_option maxHeartbeats 1600000
set_option maxRecDepth 8192

/-!
Verification of the core logic of `src/app.py` (a Streamlit member-registration
app backed by a Google Sheet) against its natural-language specification.

Python strings are modelled as Lean `String` (a `List Char` underneath).  The
Unicode primitives used by the code — `str.strip()`, the regex class `\s`,
`unicodedata.normalize("NFKD", ...)`, `unicodedata.combining`, `str.lower()` —
are modelled character-wise.  NFKD decomposition is given by a finite table
covering the characters this development exercises (Latin letters with
diacritics as used in Brazilian names, plus the compatibility character
VULGAR FRACTION ONE HALF, whose real NFKD decomposition is the three
characters "1", FRACTION SLASH, "2"); characters outside the table are treated
as decomposition-stable, which matches real NFKD for all ASCII characters.
`str.lower()` is modelled as ASCII lowercasing, faithful on the model's
domain because the code lowercases only after stripping diacritics.
-/

/-- Model of the Python whitespace set: the characters stripped by
`str.strip()` and matched by the regex class `\s` in `app.py`. -/
def isPySpace (c : Char) : Bool :=
  decide (c.toNat ∈ [9, 10, 11, 12, 13, 28, 29, 30, 31, 32, 133, 160,
    0x1680, 0x2000, 0x2001, 0x2002, 0x2003, 0x2004, 0x2005, 0x2006, 0x2007,
    0x2008, 0x2009, 0x200A, 0x2028, 0x2029, 0x202F, 0x205F, 0x3000])

/-- The control characters removed by `validate_input_text`
(`app.py` line 165): the regex ranges `\x00-\x08`, `\x0B`, `\x0C`,
`\x0E-\x1F` and `\x7F`.  Note that TAB, LF and CR are kept. -/
def isCtrlRemoved (c : Char) : Bool :=
  decide (c.toNat ≤ 8 ∨ c.toNat = 11 ∨ c.toNat = 12 ∨
    (14 ≤ c.toNat ∧ c.toNat ≤ 31) ∨ c.toNat = 127)

/-- Model of `unicodedata.combining(ch) != 0`, restricted to the Combining
Diacritical Marks block U+0300..U+036F, which covers every combining mark
produced by the decomposition table below. -/
def isCombining (c : Char) : Bool :=
  decide (0x300 ≤ c.toNat ∧ c.toNat ≤ 0x36F)

/-- ASCII decimal digit, the model of the regex class `\d` of `only_digits`. -/
def isDigitChar (c : Char) : Bool :=
  decide (48 ≤ c.toNat ∧ c.toNat ≤ 57)

/-- Model of `str.lower()` on one character (ASCII case mapping; see the
module docstring for why this is faithful here). -/
def lowerChar (c : Char) : Char :=
  if 65 ≤ c.toNat ∧ c.toNat ≤ 90 then Char.ofNat (c.toNat + 32) else c

/-- Finite model of NFKD decomposition (`unicodedata.normalize("NFKD", ·)`):
each listed character maps to its real NFKD decomposition; every character
not listed is treated as NFKD-stable. -/
def nfkdTable : List (Char × List Char) :=
  [('á', ['a', '́']), ('é', ['e', '́']), ('í', ['i', '́']),
   ('ó', ['o', '́']), ('ú', ['u', '́']),
   ('â', ['a', '̂']), ('ê', ['e', '̂']), ('ô', ['o', '̂']),
   ('ã', ['a', '̃']), ('õ', ['o', '̃']),
   ('à', ['a', '̀']), ('ç', ['c', '̧']), ('ü', ['u', '̈']),
   ('Á', ['A', '́']), ('É', ['E', '́']), ('Í', ['I', '́']),
   ('Ó', ['O', '́']), ('Ú', ['U', '́']),
   ('Â', ['A', '̂']), ('Ê', ['E', '̂']), ('Ô', ['O', '̂']),
   ('Ã', ['A', '̃']), ('Õ', ['O', '̃']),
   ('À', ['A', '̀']), ('Ç', ['C', '̧']), ('Ü', ['U', '̈']),
   ('½', ['1', '⁄', '2'])]

/-- NFKD decomposition of a single character, via `nfkdTable`. -/
def nfkdChar (c : Char) : List Char :=
  match nfkdTable.lookup c with
  | some l => l
  | none => [c]

/-- Model of Python `str.strip()` on the character list. -/
def pyStrip (l : List Char) : List Char :=
  (((l.dropWhile isPySpace).reverse.dropWhile isPySpace).reverse)

/-- The character-removal step of `validate_input_text` (`app.py` line 165). -/
def ctrl_filter (l : List Char) : List Char :=
  l.filter (fun c => !isCtrlRemoved c)

/-- Model of `_strip_accents` (`app.py` lines 177-179): NFKD-decompose, then
drop the combining marks. -/
def strip_accents (l : List Char) : List Char :=
  (l.flatMap nfkdChar).filter (fun c => !isCombining c)

/-- Model of `s.lower()` (`app.py` line 188). -/
def lower_map (l : List Char) : List Char :=
  l.map lowerChar

/-- First half of `re.sub(r"\s+", " ", s)`: each whitespace character becomes
a plain space. -/
def ws_to_space (l : List Char) : List Char :=
  l.map (fun c => if isPySpace c then ' ' else c)

/-- Second half of `re.sub(r"\s+", " ", s)`: adjacent spaces collapse to one. -/
def squeeze : List Char → List Char
  | [] => []
  | [c] => [c]
  | a :: b :: rest =>
    if a = ' ' ∧ b = ' ' then squeeze (b :: rest) else a :: squeeze (b :: rest)

/-- Model of `re.sub(r"\s+", " ", s)` (`app.py` line 189). -/
def collapse_ws (l : List Char) : List Char :=
  squeeze (ws_to_space l)

/-- The whole `norm_text` pipeline (`app.py` lines 182-190) on character
lists: strip, remove control characters and truncate to 200 characters
(`validate_input_text`, default `max_length = 200`), strip accents,
lowercase, collapse whitespace runs. -/
def norm_list (l : List Char) : List Char :=
  collapse_ws (lower_map (strip_accents ((ctrl_filter (pyStrip l)).take 200)))

/-- `norm_text` (`app.py` lines 182-190).  The `None`/NaN guard of the Python
function is outside the model: every modelled value is a string. -/
def norm_text (s : String) : String :=
  String.mk (norm_list s.data)

/-- `first_token` (`app.py` lines 193-197): `norm_text`, then the prefix up
to (not including) the first space — `s.split(" ", 1)[0]`. -/
def first_token (s : String) : String :=
  String.mk ((norm_text s).data.takeWhile (fun c => c != ' '))

/-- `only_digits` (`app.py` lines 200-201): `re.sub(r"\D+", "", s)`. -/
def only_digits (s : String) : String :=
  String.mk (s.data.filter isDigitChar)

/-- Python `str.strip()` on strings. -/
def pyStripS (s : String) : String :=
  String.mk (pyStrip s.data)

/-- Python `str.lower()` on strings (ASCII case mapping). -/
def lowerS (s : String) : String :=
  String.mk (s.data.map lowerChar)

/-- `safe_sheet_value` (`app.py` lines 170-174): prefix a quote when the
value is a non-empty string starting with `=`, `+`, `-` or `@`. -/
def safe_sheet_value (v : String) : String :=
  match v.data with
  | [] => v
  | c :: _ =>
    if c = '=' ∨ c = '+' ∨ c = '-' ∨ c = '@' then "'" ++ v else v

/-- `clean_cell` (`app.py` lines 204-210).  The `None`/NaN-float guard is
outside the model (cells are strings); the string path is: strip, map
`"nan"`/`"none"` (case-insensitively) to `""`, then `safe_sheet_value`. -/
def clean_cell (v : String) : String :=
  let s := pyStripS v
  if lowerS s = "nan" ∨ lowerS s = "none" then "" else safe_sheet_value s

/-- `format_cpf` (`app.py` lines 250-254). -/
def format_cpf (v : String) : String :=
  let d := only_digits v
  if d.length ≠ 11 then pyStripS v
  else
    String.mk (d.data.take 3) ++ "." ++ String.mk ((d.data.drop 3).take 3) ++
      "." ++ String.mk ((d.data.drop 6).take 3) ++ "-" ++ String.mk (d.data.drop 9)

/-- `calc_dv` inside `cpf_valido` (`app.py` lines 264-268): weighted digit
sum, remainder mod 11, check digit `0` if the remainder is below 2 and
`11 - remainder` otherwise, returned as a digit character. -/
def calc_dv (base : List Char) (pesos : List Nat) : Char :=
  let soma := (List.zipWith (fun a b => (a.toNat - 48) * b) base pesos).sum
  let resto := soma % 11
  let dv := if resto < 2 then 0 else 11 - resto
  Char.ofNat (48 + dv)

/-- The body of `cpf_valido` (`app.py` lines 257-274) after digit
extraction: length test, repeated-digit test, and the two `calc_dv` check
digits (`pesos` being `range(10, 1, -1)` and `range(11, 1, -1)`). -/
def cpf_valido_digits (c : List Char) : Bool :=
  if c.length ≠ 11 then false
  else
    match c with
    | [] => false
    | c0 :: _ =>
      if c = List.replicate 11 c0 then false
      else
        let base9 := c.take 9
        let dv1 := calc_dv base9 [10, 9, 8, 7, 6, 5, 4, 3, 2]
        let base10 := base9 ++ [dv1]
        let dv2 := calc_dv base10 [11, 10, 9, 8, 7, 6, 5, 4, 3, 2]
        decide (c = base9 ++ [dv1, dv2])

/-- `cpf_valido` (`app.py` lines 257-274): `cpf = only_digits(cpf)`, then the
length, repeated-digit and check-digit tests. -/
def cpf_valido (cpf : String) : Bool :=
  cpf_valido_digits (only_digits cpf).data

/-- Digit value of a digit character (Python `int(a)` inside `calc_dv`). -/
def digit_val (c : Char) : Nat := c.toNat - 48

/-- The claim's check-digit rule: remainder of the weighted sum mod 11;
check digit 0 when the remainder is below 2, else 11 minus the remainder. -/
def dv_of_sum (soma : Nat) : Nat :=
  if soma % 11 < 2 then 0 else 11 - soma % 11

/-- C3's specification of CPF validity, written from the claim's words, over
the extracted digit characters: exactly 11 digits, not all the same digit,
and the 10th and 11th digits equal the two mod-11 check digits (weights 10
down to 2 over the first 9 digits, then 11 down to 2 over the first 10). -/
def cpf_claim_spec_digits (c : List Char) : Prop :=
  let v := c.map digit_val
  c.length = 11 ∧
  (¬ ∀ x ∈ c, x = c.headD '0') ∧
  v.get? 9 = some (dv_of_sum
    ((List.zipWith (· * ·) (v.take 9) [10, 9, 8, 7, 6, 5, 4, 3, 2]).sum)) ∧
  v.get? 10 = some (dv_of_sum
    ((List.zipWith (· * ·) (v.take 10) [11, 10, 9, 8, 7, 6, 5, 4, 3, 2]).sum))

/-- C3's specification of CPF validity on the raw input string. -/
def cpf_claim_spec (s : String) : Prop :=
  cpf_claim_spec_digits (only_digits s).data

/-- `phone_valido` (`app.py` lines 277-279): extract digits and compare the
count with 11. -/
def phone_valido (v : String) : Bool :=
  (only_digits v).length == 11

/-- The inner `col_to_a1` of `gspread_a1` (`app.py` lines 467-472): the
`while n: n, r = divmod(n - 1, 26); s = chr(65 + r) + s` loop. -/
def col_to_a1 (n : Nat) : List Char :=
  if h : n = 0 then []
  else col_to_a1 ((n - 1) / 26) ++ [Char.ofNat (65 + (n - 1) % 26)]
termination_by n
decreasing_by
  exact Nat.lt_of_le_of_lt (Nat.div_le_self _ _)
    (Nat.sub_lt (Nat.pos_of_ne_zero h) Nat.one_pos)

/-- Specification-side value of a column-letter string: bijective base-26,
`A` = 1, ..., `Z` = 26, no zero digit. -/
def a1_val (l : List Char) : Nat :=
  l.foldl (fun a c => a * 26 + (c.toNat - 64)) 0

/-- `gspread_a1` (`app.py` lines 466-473). -/
def gspread_a1 (r1 c1 r2 c2 : Nat) : String :=
  String.mk (col_to_a1 c1) ++ toString r1 ++ ":" ++ String.mk (col_to_a1 c2) ++ toString r2

/-- The padding step of `update_row_in_sheet` (`app.py` lines 508-509). -/
def pad_row (header row : List String) : List String :=
  if row.length < header.length then
    row ++ List.replicate (header.length - row.length) "" else row

/-- The payload loop of `update_row_in_sheet` (`app.py` lines 511-514):
`for k, v in payload.items(): if k in header: row[header.index(k)] = clean_cell(v)`. -/
def apply_payload (header : List String) (payload : List (String × String))
    (row : List String) : List String :=
  payload.foldl
    (fun acc kv =>
      if kv.1 ∈ header then acc.set (header.indexOf kv.1) (clean_cell kv.2) else acc)
    row

/-- `update_row_in_sheet` (`app.py` lines 501-523), as a pure function from
the current header and the row's current raw values to the written A1 range
and the written row.  The backup side channel (local JSON file) and the
`ws.update` I/O call are outside the model. -/
def update_row_in_sheet (sheet_row : Nat) (header : List String)
    (row_values : List String) (payload : List (String × String)) :
    String × List String :=
  (gspread_a1 sheet_row 1 sheet_row header.length,
    apply_payload header payload (pad_row header row_values))

/-- `append_row_in_sheet` (`app.py` lines 526-529): the appended row is
`[clean_cell(payload.get(c, "")) for c in header]`. -/
def append_row_in_sheet (header : List String)
    (payload : List (String × String)) : List String :=
  header.map (fun c => clean_cell ((payload.lookup c).getD ""))

/-- A Python exception as seen by `handle_google_api_errors`: the name of its
type and its string rendering. -/
structure PyExc where
  typeName : String
  message : String
deriving DecidableEq

/-- Python's substring test `pat in hay`, via `str.split`. -/
def containsSub (hay pat : String) : Bool :=
  1 < (hay.splitOn pat).length

/-- The message branch of `handle_google_api_errors` (`app.py` lines 133-139). -/
def error_message_for (e : PyExc) : String :=
  if containsSub e.typeName "APIError" then
    "Erro de comunicacao com o Google Sheets. Tente novamente."
  else if containsSub e.typeName "SpreadsheetNotFound" then
    "Planilha nao encontrada. Verifique o ID."
  else "Erro na API do Google: " ++ e.message

/-- `handle_google_api_errors` (`app.py` lines 126-141) applied to a remote
call.  `call n` is the outcome the remote would give to the (n+1)-th attempt;
the decorator performs a single `try`: it invokes `call 0`, and on an
exception shows one error message and returns `None`.  The result is
(returned value, error messages shown, number of remote calls made). -/
def handle_google_api_errors (call : Nat → Except PyExc Unit) :
    Option Unit × List String × Nat :=
  match call 0 with
  | Except.ok u => (some u, [], 1)
  | Except.error e => (none, [error_message_for e], 1)

/-- A remote whose first attempt fails with a transient API error and whose
second attempt would succeed. -/
def transient_failure : Nat → Except PyExc Unit :=
  fun n => if n = 0 then Except.error ⟨"APIError", "429 rate limit"⟩ else Except.ok ()

/-- A Python `datetime.date`: plain calendar equality. -/
structure PyDate where
  year : Nat
  month : Nat
  day : Nat
deriving DecidableEq

/-- One row of the loaded table as `find_matches` sees it: the precomputed
`_data_nasc_date` column (the `parse_date_any` result attached by
`load_sheet_df`, `None` when unparseable) and the raw `nome_mae` cell. -/
structure Row where
  dataNascDate : Option PyDate
  nomeMae : String
deriving DecidableEq

/-- `find_matches` (`app.py` lines 424-430): empty result when the query's
first token is empty, otherwise the rows with exact birth-date equality and
matching mother-name first token. -/
def find_matches (df : List Row) (dn : PyDate) (mae : String) : List Row :=
  let maeFirst := first_token mae
  if maeFirst = "" then []
  else df.filter (fun r =>
    decide (r.dataNascDate = some dn) && decide (first_token r.nomeMae = maeFirst))

/-- Invariant of every character that the `norm_text` pipeline outputs: it
is a plain space, or a non-whitespace character that is NFKD-stable,
non-combining, lowercase-fixed and not a removed control character. -/
def goodChar (c : Char) : Prop :=
  c = ' ' ∨
    (isPySpace c = false ∧ nfkdChar c = [c] ∧ isCombining c = false ∧
      lowerChar c = c ∧ isCtrlRemoved c = false)

/-! ## General lemmas -/

theorem char_toNat_inj {a b : Char} (h : a.toNat = b.toNat) : a = b :=
  Char.ext (UInt32.ext h)

theorem char_ofNat_toNat {n : Nat} (h : n < 55296) : (Char.ofNat n).toNat = n := by
  have hv : n.isValidChar := Or.inl h
  simp [Char.ofNat, hv, Char.toNat, Char.ofNatAux, UInt32.toNat, BitVec.toNat_ofNatLt]

/-! ## C1: phone validation -/

/-- C1 counterexample: the claim says `phone_valido` succeeds only when the
third digit is `'9'` and the area code lies in `[11, 99]`, but the code
accepts `"08212345678"` (11 digits, area digits `08`, third digit `'2'`). -/
theorem counterexample_C1 :
    phone_valido "08212345678" = true ∧
    (only_digits "08212345678").data.get? 2 ≠ some '9' ∧
    (only_digits "08212345678").data.take 2 = ['0', '8'] := by
  decide

/-- C1 (amended): `phone_valido` succeeds exactly when the extracted digits
number 11 — there is no area-code or mobile-marker check; it accepts
`"85991234567"` and rejects `"8521234567"` (10 digits). -/
theorem claim_C1 :
    (∀ v : String, phone_valido v = true ↔ (only_digits v).length = 11) ∧
    phone_valido "85991234567" = true ∧
    phone_valido "8521234567" = false := by
  refine ⟨fun v => ?_, by decide, by decide⟩
  simp [phone_valido]

/-! ## C2: retry behaviour of remote-call error handling -/

/-- C2 counterexample: on a transient failure (first attempt fails, second
would succeed) the decorated call makes exactly one remote call and returns
`None` — there is no retry. -/
theorem counterexample_C2 :
    (handle_google_api_errors transient_failure).2.2 = 1 ∧
    (handle_google_api_errors transient_failure).1 = none ∧
    transient_failure 1 = Except.ok () :=
  ⟨rfl, rfl, rfl⟩

/-- C2 (amended): every decorated remote call makes exactly one attempt (no
retry, no backoff); the call fails exactly when an error message is shown
(so the failure is reported, not silently swallowed), and succeeds exactly
when the single attempt succeeds. -/
theorem claim_C2 (call : Nat → Except PyExc Unit) :
    (handle_google_api_errors call).2.2 = 1 ∧
    ((handle_google_api_errors call).1 = none ↔
      (handle_google_api_errors call).2.1 ≠ []) ∧
    ((handle_google_api_errors call).1 = some () ↔ call 0 = Except.ok ()) := by
  cases h : call 0 <;> simp [handle_google_api_errors, h]

/-! ## C4: identity matching -/

/-- C4: `find_matches` returns the empty set when the query's first token is
empty and otherwise exactly the rows with calendar-equal parsed birth date
and equal mother-name first token; on two rows born 1990-05-10 with mothers
"Maria Silva" and "Maria Costa", the query "Maria" returns both and the
query "Joana" returns none. -/
theorem claim_C4 :
    (∀ (df : List Row) (dn : PyDate) (mae : String),
      find_matches df dn mae =
        if first_token mae = "" then []
        else df.filter (fun r =>
          decide (r.dataNascDate = some dn ∧ first_token r.nomeMae = first_token mae))) ∧
    find_matches [⟨some ⟨1990, 5, 10⟩, "Maria Silva"⟩, ⟨some ⟨1990, 5, 10⟩, "Maria Costa"⟩]
        ⟨1990, 5, 10⟩ "Maria"
      = [⟨some ⟨1990, 5, 10⟩, "Maria Silva"⟩, ⟨some ⟨1990, 5, 10⟩, "Maria Costa"⟩] ∧
    find_matches [⟨some ⟨1990, 5, 10⟩, "Maria Silva"⟩, ⟨some ⟨1990, 5, 10⟩, "Maria Costa"⟩]
        ⟨1990, 5, 10⟩ "Joana" = [] := by
  refine ⟨fun df dn mae => ?_, by decide, by decide⟩
  unfold find_matches
  by_cases h : first_token mae = "" <;> simp [h, Bool.decide_and]

/-! ## C6: bijective base-26 column letters -/

theorem a1_val_append_single (l : List Char) (c : Char) :
    a1_val (l ++ [c]) = a1_val l * 26 + (c.toNat - 64) := by
  simp [a1_val, List.foldl_append]

theorem char_ofNat_65_add {r : Nat} (h : r < 26) :
    (Char.ofNat (65 + r)).toNat = 65 + r :=
  char_ofNat_toNat (by omega)

theorem col_to_a1_val : ∀ n : Nat, a1_val (col_to_a1 n) = n := by
  intro n
  induction n using Nat.strong_induction_on with
  | _ n ih =>
    rw [col_to_a1]
    by_cases h : n = 0
    · simp [h, a1_val]
    · rw [dif_neg h, a1_val_append_single,
        ih _ (Nat.lt_of_le_of_lt (Nat.div_le_self _ _)
          (Nat.sub_lt (Nat.pos_of_ne_zero h) Nat.one_pos)),
        char_ofNat_65_add (Nat.mod_lt _ (by omega))]
      have := Nat.div_add_mod (n - 1) 26
      omega

theorem col_to_a1_letters : ∀ n : Nat,
    (col_to_a1 n).all (fun c => decide (65 ≤ c.toNat ∧ c.toNat ≤ 90)) = true := by
  intro n
  induction n using Nat.strong_induction_on with
  | _ n ih =>
    rw [col_to_a1]
    by_cases h : n = 0
    · simp [h]
    · rw [dif_neg h]
      simp only [List.all_append]
      refine Bool.and_eq_true_iff.mpr ⟨ih _ (Nat.lt_of_le_of_lt (Nat.div_le_self _ _)
        (Nat.sub_lt (Nat.pos_of_ne_zero h) Nat.one_pos)), ?_⟩
      have hlt : (n - 1) % 26 < 26 := Nat.mod_lt _ (by omega)
      have h26 := char_ofNat_65_add hlt
      simp only [List.all_cons, List.all_nil, Bool.and_true, decide_eq_true_eq, h26]
      omega

/-- C6: the column-letter conversion is the 1-based bijective base-26
encoding: decoding its output (A=1, ..., Z=26, no zero digit) gives back the
input, every output character is an uppercase letter, and the landmark
values 1, 26, 27, 52, 702, 703 map to A, Z, AA, AZ, ZZ, AAA. -/
theorem claim_C6 :
    (∀ n : Nat, a1_val (col_to_a1 n) = n) ∧
    (∀ n : Nat, (col_to_a1 n).all (fun c => decide (65 ≤ c.toNat ∧ c.toNat ≤ 90)) = true) ∧
    col_to_a1 1 = ['A'] ∧ col_to_a1 26 = ['Z'] ∧ col_to_a1 27 = ['A', 'A'] ∧
    col_to_a1 52 = ['A', 'Z'] ∧ col_to_a1 702 = ['Z', 'Z'] ∧
    col_to_a1 703 = ['A', 'A', 'A'] := by
  refine ⟨col_to_a1_val, col_to_a1_letters, ?_, ?_, ?_, ?_, ?_, ?_⟩ <;>
    simp [col_to_a1]

/-! ## C7: digits of the CPF mask -/

/-- C7: for a string of exactly 11 digit characters, masking with
`format_cpf` and re-extracting digits with `only_digits` is the identity. -/
theorem claim_C7 (s : String) (h1 : s.data.length = 11)
    (h2 : ∀ c ∈ s.data, isDigitChar c = true) :
    only_digits (format_cpf s) = s := by
  obtain ⟨l⟩ := s
  have hfil : l.filter isDigitChar = l := List.filter_eq_self.mpr h2
  have hsub : ∀ m : List Char, m ⊆ l → m.filter isDigitChar = m := fun m hm =>
    List.filter_eq_self.mpr (fun c hc => h2 c (hm hc))
  unfold format_cpf only_digits
  simp only [String.data] at h1 h2 ⊢
  rw [hfil]
  rw [if_neg (by simp [String.length, hfil, h1])]
  simp only [String.data_append, List.filter_append, hfil]
  rw [hsub _ (List.take_subset _ _),
    hsub _ (List.Subset.trans (List.take_subset _ _) (List.drop_subset _ _)),
    hsub _ (List.Subset.trans (List.take_subset _ _) (List.drop_subset _ _)),
    hsub _ (List.drop_subset _ _)]
  have hdot : (".".data.filter isDigitChar) = [] := by decide
  have hdash : ("-".data.filter isDigitChar) = [] := by decide
  rw [hdot, hdash]
  simp only [List.nil_append, List.append_nil]
  have e3 : List.take 3 l ++ List.drop 3 l = l := List.take_append_drop 3 l
  have e6 : List.take 3 (List.drop 3 l) ++ List.drop 3 (List.drop 3 l) = List.drop 3 l :=
    List.take_append_drop 3 (List.drop 3 l)
  have e9 : List.take 3 (List.drop 6 l) ++ List.drop 3 (List.drop 6 l) = List.drop 6 l :=
    List.take_append_drop 3 (List.drop 6 l)
  have d36 : List.drop 3 (List.drop 3 l) = List.drop 6 l := by
    rw [List.drop_drop]
  have d69 : List.drop 3 (List.drop 6 l) = List.drop 9 l := by
    rw [List.drop_drop]
  congr 1
  rw [List.append_assoc, List.append_assoc, ← d69, e9, ← d36, e6, e3]

/-- C7 witness at a concrete 11-digit string. -/
theorem claim_C7_witness :
    only_digits (format_cpf "12345678901") = "12345678901" :=
  claim_C7 "12345678901" (by decide) (by decide)

/-! ## C3: CPF validation -/

theorem only_digits_all (s : String) : ∀ c ∈ (only_digits s).data, isDigitChar c = true := by
  intro c hc
  simp only [only_digits, String.data] at hc
  exact (List.mem_filter.mp hc).2

theorem dv_of_sum_le (n : Nat) : dv_of_sum n ≤ 9 := by
  unfold dv_of_sum
  split <;> omega

theorem char_eq_digit_iff {c : Char} {d : Nat} (hc : isDigitChar c = true) (hd : d ≤ 9) :
    c = Char.ofNat (48 + d) ↔ digit_val c = d := by
  have hofn : (Char.ofNat (48 + d)).toNat = 48 + d := char_ofNat_toNat (by omega)
  have hcn : 48 ≤ c.toNat ∧ c.toNat ≤ 57 := by
    simpa [isDigitChar] using hc
  unfold digit_val
  constructor
  · intro h
    rw [h, hofn]
    omega
  · intro h
    apply char_toNat_inj
    rw [hofn]
    omega

theorem calc_dv_eq (base : List Char) (pesos : List Nat) :
    calc_dv base pesos =
      Char.ofNat (48 + dv_of_sum
        ((List.zipWith (fun a b => digit_val a * b) base pesos).sum)) := rfl

theorem digit_val_ofNat {d : Nat} (hd : d ≤ 9) :
    digit_val (Char.ofNat (48 + d)) = d := by
  unfold digit_val
  rw [char_ofNat_toNat (by omega)]
  omega

theorem exists_eleven {α : Type} (l : List α) (h : l.length = 11) :
    ∃ a0 a1 a2 a3 a4 a5 a6 a7 a8 a9 a10 : α,
      l = [a0, a1, a2, a3, a4, a5, a6, a7, a8, a9, a10] := by
  rcases l with _ | ⟨a0, l⟩
  · simp at h
  rcases l with _ | ⟨a1, l⟩
  · simp at h
  rcases l with _ | ⟨a2, l⟩
  · simp at h
  rcases l with _ | ⟨a3, l⟩
  · simp at h
  rcases l with _ | ⟨a4, l⟩
  · simp at h
  rcases l with _ | ⟨a5, l⟩
  · simp at h
  rcases l with _ | ⟨a6, l⟩
  · simp at h
  rcases l with _ | ⟨a7, l⟩
  · simp at h
  rcases l with _ | ⟨a8, l⟩
  · simp at h
  rcases l with _ | ⟨a9, l⟩
  · simp at h
  rcases l with _ | ⟨a10, l⟩
  · simp at h
  rcases l with _ | ⟨a11, l⟩
  · exact ⟨a0, a1, a2, a3, a4, a5, a6, a7, a8, a9, a10, rfl⟩
  · simp [List.length_cons] at h

theorem cpf_core (c : List Char) (hd : ∀ x ∈ c, isDigitChar x = true) :
    cpf_valido_digits c = true ↔ cpf_claim_spec_digits c := by
  by_cases hlen : c.length = 11
  · obtain ⟨a0, a1, a2, a3, a4, a5, a6, a7, a8, a9, a10, rfl⟩ := exists_eleven c hlen
    have h9 : isDigitChar a9 = true := hd a9 (by simp)
    have h10 : isDigitChar a10 = true := hd a10 (by simp)
    have hRchain :
        (¬[a0, a1, a2, a3, a4, a5, a6, a7, a8, a9, a10] = List.replicate 11 a0) ↔
          (a1 = a0 → a2 = a0 → a3 = a0 → a4 = a0 → a5 = a0 → a6 = a0 → a7 = a0 →
            a8 = a0 → a9 = a0 → ¬a10 = a0) := by
      constructor
      · intro hR ha1 ha2 ha3 ha4 ha5 ha6 ha7 ha8 ha9 ha10
        subst ha1 ha2 ha3 ha4 ha5 ha6 ha7 ha8 ha9 ha10
        exact hR rfl
      · intro hch hR
        obtain ⟨-, hall⟩ := List.eq_replicate_iff.mp hR
        exact hch (hall a1 (by simp)) (hall a2 (by simp)) (hall a3 (by simp))
          (hall a4 (by simp)) (hall a5 (by simp)) (hall a6 (by simp))
          (hall a7 (by simp)) (hall a8 (by simp)) (hall a9 (by simp))
          (hall a10 (by simp))
    simp only [cpf_valido_digits, cpf_claim_spec_digits]
    norm_num
    simp only [calc_dv_eq, List.zipWith, List.sum_cons, List.sum_nil, add_zero]
    rw [digit_val_ofNat (dv_of_sum_le _)]
    rw [char_eq_digit_iff h9 (dv_of_sum_le _), char_eq_digit_iff h10 (dv_of_sum_le _),
      hRchain]
    constructor
    · rintro ⟨hch, h1, h2⟩
      refine ⟨hch, h1, ?_⟩
      rw [h1]
      exact h2
    · rintro ⟨hch, h1, h2⟩
      refine ⟨hch, h1, ?_⟩
      rw [h1] at h2
      exact h2
  · simp only [cpf_valido_digits, cpf_claim_spec_digits]
    rw [if_pos hlen]
    simp [hlen]

/-- C3 counterexample: the claim says the digits `39853271080` validate, but
`cpf_valido` rejects them — the first check digit of `398532710` is 6
(weighted sum 269, remainder 5, check digit 11 - 5 = 6), not 8. -/
theorem counterexample_C3 : cpf_valido "39853271080" = false := by
  decide

/-- C3 (amended): `cpf_valido` succeeds exactly when the extracted digits
number 11, are not all the same digit, and digits 10 and 11 equal the mod-11
check digits (weights 10..2 over the first 9 digits, then 11..2 over the
first 10; check digit 0 when the remainder is below 2, else 11 minus it);
the digits `39853271060` validate while `39853271081` and `11111111111`
fail. -/
theorem claim_C3 :
    (∀ s : String, cpf_valido s = true ↔ cpf_claim_spec s) ∧
    cpf_valido "39853271060" = true ∧
    cpf_valido "39853271081" = false ∧
    cpf_valido "11111111111" = false :=
  ⟨fun s => cpf_core _ (only_digits_all s), by decide, by decide, by decide⟩

/-! ## C5 and C10: update/append write behaviour -/

theorem apply_payload_cons (header : List String) (kv : String × String)
    (tl : List (String × String)) (r : List String) :
    apply_payload header (kv :: tl) r =
      apply_payload header tl
        (if kv.1 ∈ header then r.set (header.indexOf kv.1) (clean_cell kv.2) else r) :=
  rfl

theorem apply_payload_length (header : List String) (p : List (String × String)) :
    ∀ r : List String, (apply_payload header p r).length = r.length := by
  induction p with
  | nil => intro r; rfl
  | cons kv tl ih =>
    intro r
    rw [apply_payload_cons, ih]
    split <;> simp

theorem apply_payload_get_not_mentioned (header : List String)
    (p : List (String × String)) :
    ∀ (r : List String) (j : Nat), (∀ pp ∈ p, header.get? j ≠ some pp.1) →
      (apply_payload header p r).get? j = r.get? j := by
  induction p with
  | nil => intro r j _; rfl
  | cons kv tl ih =>
    intro r j hj
    rw [apply_payload_cons, ih _ _ (fun pp hpp => hj pp (List.mem_cons_of_mem _ hpp))]
    split
    case isTrue hmem =>
      have hne : header.indexOf kv.1 ≠ j := by
        intro he
        apply hj kv (List.mem_cons_self _ _)
        rw [← he]
        exact List.indexOf_get? hmem
      exact List.get?_set_ne _ _ hne
    case isFalse => rfl

theorem apply_payload_get_key (header : List String) (p : List (String × String)) :
    ∀ (r : List String) (k : String) (v : String),
      (p.map Prod.fst).Nodup → (k, v) ∈ p → k ∈ header → header.length ≤ r.length →
      (apply_payload header p r).get? (header.indexOf k) = some (clean_cell v) := by
  induction p with
  | nil => intro r k v _ hmem _ _; cases hmem
  | cons kv tl ih =>
    intro r k v hnod hmem hk hlen
    obtain ⟨hhead, htail⟩ := List.nodup_cons.mp hnod
    rw [apply_payload_cons]
    rcases List.mem_cons.mp hmem with heq | htl
    · subst heq
      rw [if_pos hk]
      rw [apply_payload_get_not_mentioned]
      · exact List.get?_set_eq_of_lt _
          (lt_of_lt_of_le (List.indexOf_lt_length.mpr hk) hlen)
      · intro pp hpp he
        rw [List.indexOf_get? hk] at he
        apply hhead
        show k ∈ List.map Prod.fst tl
        rw [Option.some_inj.mp he]
        exact List.mem_map_of_mem Prod.fst hpp
    · split
      · exact ih _ k v htail htl hk (by rw [List.length_set]; exact hlen)
      · exact ih _ k v htail htl hk hlen

theorem pad_row_length (header row : List String) :
    (pad_row header row).length = max header.length row.length := by
  unfold pad_row
  split <;> simp <;> omega

theorem get?_replicate_lt {α : Type} (a : α) :
    ∀ n i : Nat, i < n → (List.replicate n a).get? i = some a := by
  intro n
  induction n with
  | zero => intro i h; omega
  | succ n ih =>
    intro i h
    cases i with
    | zero => rfl
    | succ j => simpa [List.replicate_succ] using ih j (by omega)

theorem pad_row_get_lt (header row : List String) (j : Nat) (hj : j < row.length) :
    (pad_row header row).get? j = row.get? j := by
  unfold pad_row
  split
  · exact List.get?_append hj
  · rfl

theorem pad_row_get_pad (header row : List String) (j : Nat)
    (h1 : row.length ≤ j) (h2 : j < header.length) :
    (pad_row header row).get? j = some "" := by
  unfold pad_row
  rw [if_pos (by omega), List.get?_append_right h1]
  exact get?_replicate_lt _ _ _ (by omega)

/-- C5: the update writes the padded row with exactly the payload's header
columns overwritten through `clean_cell` — every header position whose name
is not a payload key keeps its padded value byte for byte (original value
below the old row length, `""` in the padding) — `atualizado` included among
the overwritten columns whenever the payload carries it, and the written
range is the single row `sheet_row` spanning columns 1 to the header
length. -/
theorem claim_C5 (sheet_row : Nat) (header row_values : List String)
    (payload : List (String × String)) (hnod : (payload.map Prod.fst).Nodup) :
    ((update_row_in_sheet sheet_row header row_values payload).2.length
        = max header.length row_values.length) ∧
    (∀ j : Nat, (∀ pp ∈ payload, header.get? j ≠ some pp.1) →
      (update_row_in_sheet sheet_row header row_values payload).2.get? j
        = (pad_row header row_values).get? j) ∧
    (∀ j : Nat, j < row_values.length →
      (pad_row header row_values).get? j = row_values.get? j) ∧
    (∀ j : Nat, row_values.length ≤ j → j < header.length →
      (pad_row header row_values).get? j = some "") ∧
    (∀ k v : String, (k, v) ∈ payload → k ∈ header →
      (update_row_in_sheet sheet_row header row_values payload).2.get?
          (header.indexOf k) = some (clean_cell v)) ∧
    (∀ t : String, ("atualizado", t) ∈ payload → "atualizado" ∈ header →
      (update_row_in_sheet sheet_row header row_values payload).2.get?
          (header.indexOf "atualizado") = some (clean_cell t)) ∧
    (update_row_in_sheet sheet_row header row_values payload).1
      = String.mk (col_to_a1 1) ++ toString sheet_row ++ ":"
          ++ String.mk (col_to_a1 header.length) ++ toString sheet_row := by
  have hpadlen : header.length ≤ (pad_row header row_values).length := by
    rw [pad_row_length]
    omega
  refine ⟨?_, ?_, ?_, ?_, ?_, ?_, rfl⟩
  · show (apply_payload header payload (pad_row header row_values)).length = _
    rw [apply_payload_length, pad_row_length]
  · intro j hj
    exact apply_payload_get_not_mentioned header payload _ j hj
  · intro j hj
    exact pad_row_get_lt header row_values j hj
  · intro j h1 h2
    exact pad_row_get_pad header row_values j h1 h2
  · intro k v hkv hk
    exact apply_payload_get_key header payload _ k v hnod hkv hk hpadlen
  · intro t ht hh
    exact apply_payload_get_key header payload _ _ t hnod ht hh hpadlen

/-- C5 witness at a concrete update: header `[a, b, atualizado]`, stored row
`[x, =f]`, payload updating `b` and `atualizado`. -/
theorem claim_C5_witness :
    (update_row_in_sheet 5 ["a", "b", "atualizado"] ["x", "=f"]
        [("b", "v"), ("atualizado", "t")]).2.get? 0 = some "x" ∧
    (update_row_in_sheet 5 ["a", "b", "atualizado"] ["x", "=f"]
        [("b", "v"), ("atualizado", "t")]).2.get? 1 = some (clean_cell "v") ∧
    (update_row_in_sheet 5 ["a", "b", "atualizado"] ["x", "=f"]
        [("b", "v"), ("atualizado", "t")]).2.get? 2 = some (clean_cell "t") := by
  have h := claim_C5 5 ["a", "b", "atualizado"] ["x", "=f"]
    [("b", "v"), ("atualizado", "t")] (by decide)
  refine ⟨?_, ?_, ?_⟩
  · rw [h.2.1 0 (by decide)]
    decide
  · exact h.2.2.2.2.1 "b" "v" (by decide) (by decide)
  · exact h.2.2.2.2.2.1 "t" (by decide) (by decide)

/-- C10: every payload-derived cell value passes through `clean_cell`:
a value whose trimmed form is empty or reads `nan`/`none` case-insensitively
is stored as `""`; a value whose trimmed form starts with `=`, `+`, `-` or
`@` is stored with one leading apostrophe; an appended row consists exactly
of the `clean_cell` images of the payload values looked up per header
column (missing keys default to `""`); and an updated row stores
`clean_cell v` at the column of every payload entry `(k, v)` present in the
header. -/
theorem claim_C10 :
    (∀ v : String,
      (pyStripS v = "" ∨ lowerS (pyStripS v) = "nan" ∨ lowerS (pyStripS v) = "none") →
      clean_cell v = "") ∧
    (∀ (v : String) (c : Char) (rest : List Char),
      (pyStripS v).data = c :: rest → (c = '=' ∨ c = '+' ∨ c = '-' ∨ c = '@') →
      lowerS (pyStripS v) ≠ "nan" → lowerS (pyStripS v) ≠ "none" →
      clean_cell v = "'" ++ pyStripS v) ∧
    (∀ (header : List String) (payload : List (String × String)) (i : Nat),
      (append_row_in_sheet header payload).get? i
        = (header.get? i).map (fun c => clean_cell ((payload.lookup c).getD ""))) ∧
    (∀ (sheet_row : Nat) (header row_values : List String)
        (payload : List (String × String)) (k v : String),
      (payload.map Prod.fst).Nodup → (k, v) ∈ payload → k ∈ header →
      (update_row_in_sheet sheet_row header row_values payload).2.get?
          (header.indexOf k) = some (clean_cell v)) := by
  refine ⟨?_, ?_, ?_, ?_⟩
  · intro v hv
    unfold clean_cell
    rcases hv with he | hn | hn
    · rw [if_neg (by rw [he]; decide), he]
      rfl
    · rw [if_pos (Or.inl hn)]
    · rw [if_pos (Or.inr hn)]
  · intro v c rest hdata hc hn1 hn2
    unfold clean_cell
    rw [if_neg (by tauto)]
    unfold safe_sheet_value
    rw [hdata]
    show (if c = '=' ∨ c = '+' ∨ c = '-' ∨ c = '@' then "'" ++ pyStripS v
      else pyStripS v) = "'" ++ pyStripS v
    rw [if_pos hc]
  · intro header payload i
    unfold append_row_in_sheet
    exact List.get?_map _ _ _
  · intro sheet_row header row_values payload k v hnod hkv hk
    have hpadlen : header.length ≤ (pad_row header row_values).length := by
      rw [pad_row_length]
      omega
    exact apply_payload_get_key header payload _ k v hnod hkv hk hpadlen

/-- C10 witness: a formula-like value gains a leading apostrophe and an
`nan` value is blanked. -/
theorem claim_C10_witness :
    clean_cell " =2+2 " = "'=2+2" ∧ clean_cell " NaN " = "" := by
  refine ⟨?_, ?_⟩
  · rw [claim_C10.2.1 " =2+2 " '=' ['2', '+', '2'] (by decide) (by decide)
      (by decide) (by decide)]
    decide
  · exact claim_C10.1 " NaN " (by decide)

/-! ## C8 and C9: the normalization pipeline -/

theorem lookup_eq_none_keys {β : Type} (l : List (Char × β)) (a : Char)
    (h : ∀ p ∈ l, p.1 ≠ a) : l.lookup a = none := by
  induction l with
  | nil => rfl
  | cons p tl ih =>
    obtain ⟨k, b⟩ := p
    have hk : (a == k) = false :=
      beq_eq_false_iff_ne.mpr (fun he => h (k, b) (List.mem_cons_self _ _) he.symm)
    simp only [List.lookup, hk]
    exact ih (fun q hq => h q (List.mem_cons_of_mem _ hq))

theorem lookup_some_mem {β : Type} {l : List (Char × β)} {a : Char} {v : β}
    (h : l.lookup a = some v) : (a, v) ∈ l := by
  induction l with
  | nil => cases h
  | cons p tl ih =>
    obtain ⟨k, b⟩ := p
    simp only [List.lookup] at h
    cases hk : a == k with
    | true =>
      rw [hk] at h
      have hka : a = k := beq_iff_eq.mp hk
      subst hka
      injection h with hbv
      subst hbv
      exact List.mem_cons_self _ _
    | false =>
      rw [hk] at h
      exact List.mem_cons_of_mem _ (ih h)

theorem lookup_none_lt128 (u : Char) (h : u.toNat < 128) :
    nfkdTable.lookup u = none := by
  have hkeys : ∀ p ∈ nfkdTable, 127 < p.1.toNat := by decide
  apply lookup_eq_none_keys
  intro p hp heq
  have := hkeys p hp
  rw [heq] at this
  omega

theorem tbl_values : ∀ p ∈ nfkdTable, ∀ d ∈ p.2, isCombining d = true ∨
    (isCtrlRemoved d = false ∧ nfkdTable.lookup d = none) := by decide

theorem stable_of_toNat_lower {u : Char} (h1 : 97 ≤ u.toNat) (h2 : u.toNat ≤ 122) :
    nfkdChar u = [u] ∧ isCombining u = false ∧ lowerChar u = u ∧
      isCtrlRemoved u = false := by
  refine ⟨?_, ?_, ?_, ?_⟩
  · rw [nfkdChar, lookup_none_lt128 u (by omega)]
  · simp only [isCombining, decide_eq_false_iff_not]
    omega
  · unfold lowerChar
    rw [if_neg (by omega)]
  · simp only [isCtrlRemoved, decide_eq_false_iff_not]
    omega

theorem stable_of_basic {d : Char} (hctrl : isCtrlRemoved d = false)
    (hcomb : isCombining d = false) (hkey : nfkdTable.lookup d = none) :
    nfkdChar (lowerChar d) = [lowerChar d] ∧ isCombining (lowerChar d) = false ∧
      lowerChar (lowerChar d) = lowerChar d ∧ isCtrlRemoved (lowerChar d) = false := by
  by_cases hup : 65 ≤ d.toNat ∧ d.toNat ≤ 90
  · have hud : lowerChar d = Char.ofNat (d.toNat + 32) := if_pos hup
    have hu : (lowerChar d).toNat = d.toNat + 32 := by
      rw [hud]
      exact char_ofNat_toNat (by omega)
    exact stable_of_toNat_lower (by omega) (by omega)
  · have hud : lowerChar d = d := if_neg hup
    rw [hud]
    exact ⟨by rw [nfkdChar, hkey], hcomb, hud, hctrl⟩

theorem lower_stable {e d : Char} (hctrl : isCtrlRemoved e = false)
    (hd : d ∈ nfkdChar e) (hcomb : isCombining d = false) :
    nfkdChar (lowerChar d) = [lowerChar d] ∧ isCombining (lowerChar d) = false ∧
      lowerChar (lowerChar d) = lowerChar d ∧ isCtrlRemoved (lowerChar d) = false := by
  cases hl : nfkdTable.lookup e with
  | none =>
    rw [nfkdChar, hl, List.mem_singleton] at hd
    subst hd
    exact stable_of_basic hctrl hcomb hl
  | some vs =>
    rw [nfkdChar, hl] at hd
    rcases tbl_values _ (lookup_some_mem hl) d hd with hc | ⟨hc, hk⟩
    · rw [hc] at hcomb
      cases hcomb
    · exact stable_of_basic hc hcomb hk

theorem mem_pyStrip {c : Char} {l : List Char} (h : c ∈ pyStrip l) : c ∈ l := by
  unfold pyStrip at h
  rw [List.mem_reverse] at h
  have h2 := (List.dropWhile_suffix isPySpace).subset h
  rw [List.mem_reverse] at h2
  exact (List.dropWhile_suffix isPySpace).subset h2

theorem mem_squeeze {c : Char} : ∀ {l : List Char}, c ∈ squeeze l → c ∈ l := by
  intro l
  induction l using squeeze.induct with
  | case1 => intro h; cases h
  | case2 d => intro h; exact h
  | case3 a b rest h ih =>
    intro hm
    rw [squeeze, if_pos h] at hm
    exact List.mem_cons_of_mem _ (ih hm)
  | case4 a b rest h ih =>
    intro hm
    rw [squeeze, if_neg h] at hm
    rcases List.mem_cons.mp hm with rfl | hm2
    · exact List.mem_cons_self _ _
    · exact List.mem_cons_of_mem _ (ih hm2)

theorem good_space : goodChar ' ' := Or.inl rfl

theorem good_nfkd {c : Char} (h : goodChar c) :
    nfkdChar c = [c] ∧ isCombining c = false := by
  rcases h with rfl | h
  · exact ⟨by decide, by decide⟩
  · exact ⟨h.2.1, h.2.2.1⟩

theorem good_lower {c : Char} (h : goodChar c) : lowerChar c = c := by
  rcases h with rfl | h
  · decide
  · exact h.2.2.2.1

theorem good_ctrl {c : Char} (h : goodChar c) : isCtrlRemoved c = false := by
  rcases h with rfl | h
  · decide
  · exact h.2.2.2.2

theorem good_ws {c : Char} (h : goodChar c) : isPySpace c = true → c = ' ' := by
  rcases h with rfl | h
  · intro _
    rfl
  · intro hw
    rw [h.1] at hw
    cases hw

/-- Every character of `norm_list l` satisfies `goodChar`. -/
theorem norm_list_good (l : List Char) : ∀ c ∈ norm_list l, goodChar c := by
  intro c hc
  unfold norm_list collapse_ws at hc
  have hc2 := mem_squeeze hc
  unfold ws_to_space at hc2
  rw [List.mem_map] at hc2
  obtain ⟨d, hd, hcd⟩ := hc2
  by_cases hws : isPySpace d
  · rw [if_pos hws] at hcd
    rw [← hcd]
    exact good_space
  · rw [if_neg hws] at hcd
    subst hcd
    unfold lower_map at hd
    rw [List.mem_map] at hd
    obtain ⟨d2, hd2, hdd2⟩ := hd
    unfold strip_accents at hd2
    rw [List.mem_filter] at hd2
    obtain ⟨hd2m, hd2comb⟩ := hd2
    rw [List.mem_flatMap] at hd2m
    obtain ⟨e, he, hde⟩ := hd2m
    have hectrl : isCtrlRemoved e = false := by
      have := List.mem_of_mem_take he
      unfold ctrl_filter at this
      rw [List.mem_filter] at this
      simpa using this.2
    have hcomb2 : isCombining d2 = false := by
      simpa using hd2comb
    have hst := lower_stable hectrl hde hcomb2
    subst hdd2
    exact Or.inr ⟨by simpa using hws, hst.1, hst.2.1, hst.2.2.1, hst.2.2.2⟩

theorem squeeze_head : ∀ l : List Char, (squeeze l).head? = l.head? := by
  intro l
  induction l using squeeze.induct with
  | case1 => rfl
  | case2 c => rfl
  | case3 a b rest h ih =>
    rw [squeeze, if_pos h, ih]
    simp [h.1, h.2]
  | case4 a b rest h ih =>
    rw [squeeze, if_neg h]
    rfl

theorem chain'_squeeze : ∀ l : List Char,
    List.Chain' (fun a b => ¬(a = ' ' ∧ b = ' ')) (squeeze l) := by
  intro l
  induction l using squeeze.induct with
  | case1 => simp [squeeze]
  | case2 c => simp [squeeze]
  | case3 a b rest h ih =>
    rw [squeeze, if_pos h]
    exact ih
  | case4 a b rest h ih =>
    rw [squeeze, if_neg h]
    rw [List.chain'_cons']
    refine ⟨?_, ih⟩
    intro y hy
    rw [squeeze_head] at hy
    injection hy with hy
    subst hy
    exact h

theorem ctrl_filter_eq_self {l : List Char} (h : ∀ c ∈ l, isCtrlRemoved c = false) :
    ctrl_filter l = l :=
  List.filter_eq_self.mpr (fun c hc => by simp [h c hc])

theorem strip_accents_eq_self :
    ∀ {l : List Char}, (∀ c ∈ l, nfkdChar c = [c] ∧ isCombining c = false) →
      strip_accents l = l := by
  intro l
  induction l with
  | nil => intro _; rfl
  | cons a tl ih =>
    intro h
    obtain ⟨ha1, ha2⟩ := h a (List.mem_cons_self _ _)
    unfold strip_accents at ih ⊢
    rw [List.flatMap_cons, List.filter_append, ha1,
      ih (fun c hc => h c (List.mem_cons_of_mem _ hc))]
    simp [ha2]

theorem lower_map_eq_self {l : List Char} (h : ∀ c ∈ l, lowerChar c = c) :
    lower_map l = l := by
  unfold lower_map
  induction l with
  | nil => rfl
  | cons a tl ih =>
    rw [List.map_cons, h a (List.mem_cons_self _ _),
      ih (fun c hc => h c (List.mem_cons_of_mem _ hc))]

theorem ws_to_space_eq_self {l : List Char}
    (h : ∀ c ∈ l, isPySpace c = true → c = ' ') : ws_to_space l = l := by
  unfold ws_to_space
  induction l with
  | nil => rfl
  | cons a tl ih =>
    rw [List.map_cons, ih (fun c hc => h c (List.mem_cons_of_mem _ hc))]
    by_cases hws : isPySpace a
    · rw [if_pos hws, ← h a (List.mem_cons_self _ _) hws]
    · rw [if_neg hws]

theorem squeeze_eq_self :
    ∀ {l : List Char}, List.Chain' (fun a b => ¬(a = ' ' ∧ b = ' ')) l →
      squeeze l = l := by
  intro l
  induction l using squeeze.induct with
  | case1 => intro _; rfl
  | case2 c => intro _; rfl
  | case3 a b rest h ih =>
    intro hch
    exact absurd h (List.chain'_cons.mp hch).1.elim
  | case4 a b rest h ih =>
    intro hch
    rw [squeeze, if_neg h, ih (List.chain'_cons.mp hch).2]

/-- The output of `norm_list` has no two adjacent spaces. -/
theorem norm_list_chain (l : List Char) :
    List.Chain' (fun a b => ¬(a = ' ' ∧ b = ' ')) (norm_list l) :=
  chain'_squeeze _

theorem chain'_pyStrip {R : Char → Char → Prop} {l : List Char}
    (h : List.Chain' R l) :
    List.Chain' R (pyStrip l) := by
  unfold pyStrip
  have h1 : List.Chain' R (l.dropWhile isPySpace) :=
    List.Chain'.suffix h (List.dropWhile_suffix _)
  have h2 : List.Chain' (fun a b => R b a) (l.dropWhile isPySpace).reverse :=
    List.chain'_reverse.mpr h1
  have h2' : List.Chain' (fun a b => R b a)
      ((l.dropWhile isPySpace).reverse.dropWhile isPySpace) :=
    List.Chain'.suffix h2 (List.dropWhile_suffix _)
  have h3 := List.chain'_reverse.mpr h2'
  refine List.Chain'.imp ?_ h3
  intro a b hab
  exact hab

/-- C8 core: a second run of the pipeline only strips and re-truncates. -/
theorem norm_list_norm_list (x : List Char) :
    norm_list (norm_list x) = (pyStrip (norm_list x)).take 200 := by
  have hg : ∀ c ∈ norm_list x, goodChar c := norm_list_good x
  have hch := norm_list_chain x
  have hgs : ∀ c ∈ pyStrip (norm_list x), goodChar c :=
    fun c hc => hg c (mem_pyStrip hc)
  have hgt : ∀ c ∈ (pyStrip (norm_list x)).take 200, goodChar c :=
    fun c hc => hgs c (List.mem_of_mem_take hc)
  have hcht : List.Chain' (fun a b => ¬(a = ' ' ∧ b = ' '))
      ((pyStrip (norm_list x)).take 200) := by
    exact List.Chain'.take (chain'_pyStrip hch) _
  conv_lhs => rw [norm_list]
  rw [ctrl_filter_eq_self (fun c hc => good_ctrl (hgs c hc)),
    strip_accents_eq_self (fun c hc => good_nfkd (hgt c hc)),
    lower_map_eq_self (fun c hc => good_lower (hgt c hc))]
  unfold collapse_ws
  rw [ws_to_space_eq_self (fun c hc => good_ws (hgt c hc)),
    squeeze_eq_self hcht]

/-- C8 counterexample: `norm_text` is not idempotent.  On `"\x01 a"` the
strip happens before control-character removal, so the removal of `\x01`
exposes a leading space that only a second application trims:
`norm_text "\x01 a" = " a"` but `norm_text " a" = "a"`. -/
theorem counterexample_C8 :
    norm_text (norm_text "\x01 a") ≠ norm_text "\x01 a" := by
  decide

/-- C8 (amended): a second application of `norm_text` is not the identity in
general — it exactly re-strips and re-truncates: for every string `x`,
`norm_text (norm_text x)` equals `norm_text x` stripped of leading/trailing
whitespace and truncated to 200 characters; hence `norm_text` is idempotent
precisely on inputs whose normalized form has no leading or trailing
whitespace and at most 200 characters. -/
theorem claim_C8 (x : String) :
    norm_text (norm_text x) = String.mk ((pyStrip (norm_text x).data).take 200) := by
  unfold norm_text
  exact congrArg String.mk (norm_list_norm_list x.data)

theorem squeeze_length_le : ∀ l : List Char, (squeeze l).length ≤ l.length := by
  intro l
  induction l using squeeze.induct with
  | case1 => simp [squeeze]
  | case2 c => simp [squeeze]
  | case3 a b rest h ih =>
    rw [squeeze, if_pos h]
    exact Nat.le_succ_of_le ih
  | case4 a b rest h ih =>
    rw [squeeze, if_neg h]
    simpa using ih

theorem strip_accents_length_le :
    ∀ {l : List Char},
      (∀ c ∈ l, ((nfkdChar c).filter (fun d => !isCombining d)).length ≤ 1) →
      (strip_accents l).length ≤ l.length := by
  intro l
  induction l with
  | nil => intro _; simp [strip_accents]
  | cons a tl ih =>
    intro h
    unfold strip_accents at ih ⊢
    rw [List.flatMap_cons, List.filter_append, List.length_append]
    have h1 := h a (List.mem_cons_self _ _)
    have h2 := ih (fun c hc => h c (List.mem_cons_of_mem _ hc))
    simp only [List.length_cons]
    omega

theorem norm_list_length_le (l : List Char)
    (h : ∀ c ∈ l, ((nfkdChar c).filter (fun d => !isCombining d)).length ≤ 1) :
    (norm_list l).length ≤ 200 := by
  unfold norm_list collapse_ws
  have e1 : ((ctrl_filter (pyStrip l)).take 200).length ≤ 200 := by
    simp [List.length_take]
  have hmem : ∀ c ∈ (ctrl_filter (pyStrip l)).take 200, c ∈ l := by
    intro c hc
    have h2 := List.mem_of_mem_take hc
    unfold ctrl_filter at h2
    exact mem_pyStrip (List.mem_filter.mp h2).1
  have e2 : (strip_accents ((ctrl_filter (pyStrip l)).take 200)).length ≤ 200 :=
    le_trans (strip_accents_length_le (fun c hc => h c (hmem c hc))) e1
  calc (squeeze (ws_to_space (lower_map
          (strip_accents ((ctrl_filter (pyStrip l)).take 200))))).length
      ≤ (ws_to_space (lower_map
          (strip_accents ((ctrl_filter (pyStrip l)).take 200)))).length :=
        squeeze_length_le _
    _ = (strip_accents ((ctrl_filter (pyStrip l)).take 200)).length := by
        simp [ws_to_space, lower_map]
    _ ≤ 200 := e2

/-- C9 counterexample: the claim's consequence "every normalized output has
length at most 200" fails — NFKD decomposition can expand characters after
truncation: 67 copies of the one-character `½` (NFKD `1⁄2`) normalize to
201 characters. -/
theorem counterexample_C9 :
    200 < (norm_text (String.mk (List.replicate 67 '½'))).length := by
  decide

/-- C9 (amended): `norm_text` removes the control characters and truncates
the trimmed input to 200 characters before accent-stripping, lowercasing
and whitespace-collapsing, so no removed control character survives in any
output; the 200-character output bound holds whenever no input character's
NFKD decomposition carries more than one non-combining character (in
particular for all ASCII input),但 not in general. -/
theorem claim_C9 (s : String) :
    ((∀ c ∈ s.data, ((nfkdChar c).filter (fun d => !isCombining d)).length ≤ 1) →
      (norm_text s).length ≤ 200) ∧
    (∀ c ∈ (norm_text s).data, isCtrlRemoved c = false) := by
  constructor
  · intro h
    exact norm_list_length_le s.data h
  · intro c hc
    exact good_ctrl (norm_list_good s.data c hc)

/-- C9 witness at an ASCII name. -/
theorem claim_C9_witness : (norm_text "Maria Silva").length ≤ 200 :=
  (claim_C9 "Maria Silva").1 (by decide)
